import Mathlib

/-!
Shallow embedding of the `dhash` crate (src/lib.rs) and verification of its
specification.

The crate computes a 64-bit difference hash of an image:
* `to_grey_signature_image` converts the input to grayscale and resizes it to
  a 9×8 buffer with nearest-neighbor filtering (`resize(&grey, IMG_SCALE + 1,
  IMG_SCALE, FilterType::Nearest)`);
* `get_dhash` walks that buffer with `for i in 0..IMG_SCALE { for j in
  0..IMG_SCALE { ... } }`, comparing `get_pixel(i, j)` with
  `get_pixel(i + 1, j)` by strict `>`, records the booleans in order, and
  packs bit `k` as `1 << k`;
* `hamming_distance(left, right)` is `(left ^ right).count_ones()`.

Machine integers are modelled as `Nat`; the packed value is at most
`2 ^ 64 - 1`, so `u64` arithmetic never wraps and no modulus is needed.
Pixel intensities are modelled as `Nat` (the crate is generic over the
subpixel type; only the order on intensities is consulted).
-/

/-- The constant `IMG_SCALE: u32 = 8` from src/lib.rs. -/
def IMG_SCALE : Nat := 8

/-- An image as the crate sees one: a width, a height, and a pixel accessor.
The grayscale conversion is not contractually fixed by the spec, so `pix x y`
is the single-channel grayscale intensity at column `x`, row `y`. -/
structure Image where
  width : Nat
  height : Nat
  pix : Nat → Nat → Nat

/-- Modelled from the spec: nearest-neighbor source index selection used by the
`image` crate function `resize(_, _, _, FilterType::Nearest)`, whose body is not part
of this repository.  Output sample `i` of a dimension of `dstLen` samples reads
the source sample nearest to `(i + 0.5) * srcLen / dstLen`, clamped into
bounds; the `+ 0.5` centre offset is kept in exact arithmetic by scaling by 2. -/
def nearest_index (srcLen dstLen i : Nat) : Nat :=
  min ((2 * i + 1) * srcLen / (2 * dstLen)) (srcLen - 1)

/-- Modelled from the spec: nearest-neighbor resampling to `nw × nh`; every
output pixel is a clamped point sample of the source, with no averaging. -/
def resize_nearest (img : Image) (nw nh : Nat) : Image :=
  { width := nw
    height := nh
    pix := fun x y =>
      img.pix (nearest_index img.width nw x) (nearest_index img.height nh y) }

/-- Embedding of `to_grey_signature_image` from src/lib.rs: grayscale the input (already
reflected in `Image.pix`) and resize it to `(IMG_SCALE + 1) × IMG_SCALE`
with the nearest-neighbor filter. -/
def to_grey_signature_image (img : Image) : Image :=
  resize_nearest img (IMG_SCALE + 1) IMG_SCALE

/-- The `bits` array built by the nested loop of `get_dhash`: for each column
`i` in `0..IMG_SCALE` (outer) and row `j` in `0..IMG_SCALE` (inner), the
comparison `get_pixel(i, j) > get_pixel(i + 1, j)` is appended, so entry
`i * 8 + j` of the list is the comparison at column `i`, row `j`. -/
def dhash_bits (pix : Nat → Nat → Nat) : List Bool :=
  (List.range IMG_SCALE).flatMap fun i =>
    (List.range IMG_SCALE).map fun j => decide (pix i j > pix (i + 1) j)

/-- The packing loop of `get_dhash`: `for i in 0..bits.len() { if bits[i]
{ value += 1 << i } }`. -/
def pack_bits (bits : List Bool) : Nat :=
  (List.range bits.length).foldl
    (fun value i => if bits.getD i false then value + 1 <<< i else value) 0

/-- The extraction part of `get_dhash` (src/lib.rs lines 70–92), as a function
of the pixel accessor of the reduced 9×8 buffer. -/
def get_dhash (pix : Nat → Nat → Nat) : Nat :=
  pack_bits (dhash_bits pix)

/-- The full `get_dhash` pipeline on an image: reduce, then extract. -/
def get_dhash_image (img : Image) : Nat :=
  get_dhash (to_grey_signature_image img).pix

/-- Model of `ImageBuffer::get_pixel`, which panics when `(x, y)` is outside the
buffer; the panic branch is modelled as `none`. -/
def get_pixel (im : Image) (x y : Nat) : Option Nat :=
  if x < im.width ∧ y < im.height then some (im.pix x y) else none

/-- The nested loop of `get_dhash` with every buffer access bounds-checked:
an entry is `none` exactly when one of the two `get_pixel` calls would
panic. -/
def dhash_bits_checked (im : Image) : List (Option Bool) :=
  (List.range IMG_SCALE).flatMap fun i =>
    (List.range IMG_SCALE).map fun j =>
      match get_pixel im i j, get_pixel im (i + 1) j with
      | some l, some r => some (decide (l > r))
      | _, _ => none

/-- Model of `u64::count_ones` on a value below `2 ^ 64`: the number of set bits among
the 64 bit positions of the machine word. -/
def count_ones (n : Nat) : Nat :=
  ((List.range 64).filter fun k => n.testBit k).length

/-- Embedding of `hamming_distance` from src/lib.rs: `(left ^ right).count_ones()`. -/
def hamming_distance (left right : Nat) : Nat :=
  count_ones (left ^^^ right)

/-! ### Helper lemmas on bit packing -/

/-- Folding `fun v i => v + g i` over `List.range n` sums `g` over the range. -/
theorem foldl_range_add (g : Nat → Nat) :
    ∀ (n : Nat) (a : Nat),
      (List.range n).foldl (fun v i => v + g i) a = a + ∑ i in Finset.range n, g i := by
  intro n
  induction n with
  | zero => simp
  | succ m ih =>
    intro a
    rw [List.range_succ, List.foldl_append, ih, Finset.sum_range_succ]
    simp [Nat.add_assoc]

/-- Unfolding: `pack_bits` is the sum of `2 ^ i` over the set entries of the list. -/
theorem pack_bits_eq_sum (bits : List Bool) :
    pack_bits bits =
      ∑ i in Finset.range bits.length, if bits.getD i false then 2 ^ i else 0 := by
  unfold pack_bits
  have hfun :
      (fun (value i : Nat) => if bits.getD i false then value + 1 <<< i else value)
        = fun value i => value + (if bits.getD i false then 2 ^ i else 0) := by
    funext v i
    by_cases h : bits.getD i false = true
    · rw [if_pos h, if_pos h, Nat.shiftLeft_eq, Nat.one_mul]
    · rw [if_neg h, if_neg h, Nat.add_zero]
  rw [hfun, foldl_range_add, Nat.zero_add]

/-- A sum of distinct powers of two over `Finset.range n` is below `2 ^ n`. -/
theorem sum_cond_two_pow_lt (f : Nat → Bool) (n : Nat) :
    (∑ i in Finset.range n, if f i then 2 ^ i else 0) < 2 ^ n := by
  induction n with
  | zero => simp
  | succ m ih =>
    rw [Finset.sum_range_succ, Nat.pow_succ]
    by_cases h : f m <;> simp [h] <;> omega

/-- Bit `k` of a sum of conditional powers of two recovers the `k`-th
condition, for `k` inside the range. -/
theorem testBit_sum_cond (f : Nat → Bool) :
    ∀ (n k : Nat), k < n →
      Nat.testBit (∑ i in Finset.range n, if f i then 2 ^ i else 0) k = f k := by
  intro n
  induction n with
  | zero => intro k hk; omega
  | succ m ih =>
    intro k hk
    rw [Finset.sum_range_succ]
    rcases Nat.lt_or_ge k m with hkm | hkm
    · by_cases h : f m
      · rw [h, if_pos rfl, Nat.add_comm, Nat.testBit_two_pow_add_gt hkm, ih k hkm]
      · simp only [h, if_neg Bool.false_ne_true, Nat.add_zero]
        exact ih k hkm
    · have hk_eq : k = m := by omega
      subst hk_eq
      have hlt := sum_cond_two_pow_lt f k
      by_cases h : f k
      · rw [h, if_pos rfl, Nat.add_comm, Nat.testBit_two_pow_add_eq,
          Nat.testBit_lt_two_pow hlt]
        rfl
      · have hf : f k = false := by revert h; cases f k <;> simp
        rw [hf, if_neg Bool.false_ne_true, Nat.add_zero, Nat.testBit_lt_two_pow hlt]

/-- Bit `k` of `pack_bits bits` is entry `k` of the list, for `k` in range. -/
theorem testBit_pack_bits (bits : List Bool) (k : Nat) (hk : k < bits.length) :
    (pack_bits bits).testBit k = bits.getD k false := by
  rw [pack_bits_eq_sum]
  exact testBit_sum_cond (fun i => bits.getD i false) bits.length k hk

/-- Bound: `pack_bits` of any list stays below `2 ^ length`. -/
theorem pack_bits_lt (bits : List Bool) : pack_bits bits < 2 ^ bits.length := by
  rw [pack_bits_eq_sum]
  exact sum_cond_two_pow_lt (fun i => bits.getD i false) bits.length

/-- Vanishing: `pack_bits` of a list of all-`false` entries is zero. -/
theorem pack_bits_eq_zero (bits : List Bool) (h : ∀ b ∈ bits, b = false) :
    pack_bits bits = 0 := by
  rw [pack_bits_eq_sum]
  apply Finset.sum_eq_zero
  intro i _
  rcases Nat.lt_or_ge i bits.length with h1 | h1
  · rw [List.getD_eq_getElem bits false h1, h bits[i] (List.getElem_mem h1)]
    simp
  · rw [List.getD_eq_default bits false h1]
    simp

/-! ### Lemmas about the extraction loop of `get_dhash` -/

/-- The loop produces exactly `IMG_SCALE * IMG_SCALE = 64` booleans. -/
theorem dhash_bits_length (pix : Nat → Nat → Nat) : (dhash_bits pix).length = 64 := rfl

/-- Entry `i * 8 + j` of the `bits` list is the comparison at column `i`,
row `j`. -/
theorem dhash_bits_getD (pix : Nat → Nat → Nat) (i j : Nat) (hi : i < 8) (hj : j < 8) :
    (dhash_bits pix).getD (i * 8 + j) false = decide (pix i j > pix (i + 1) j) := by
  interval_cases i <;> interval_cases j <;> rfl

/-- Bit `i * 8 + j` of the extracted hash is the comparison at column `i`,
row `j`. -/
theorem get_dhash_testBit (pix : Nat → Nat → Nat) (i j : Nat) (hi : i < 8) (hj : j < 8) :
    (get_dhash pix).testBit (i * 8 + j) = decide (pix i j > pix (i + 1) j) := by
  have hk : i * 8 + j < (dhash_bits pix).length := by
    rw [dhash_bits_length]; omega
  rw [get_dhash, testBit_pack_bits _ _ hk, dhash_bits_getD pix i j hi hj]

/-- The extracted hash fits in 64 bits. -/
theorem get_dhash_lt_two_pow (pix : Nat → Nat → Nat) : get_dhash pix < 2 ^ 64 := by
  have h := pack_bits_lt (dhash_bits pix)
  rw [dhash_bits_length] at h
  exact h

/-- Every entry of the `bits` list of the loop vanishes on a constant grid. -/
theorem dhash_bits_const (c : Nat) : ∀ b ∈ dhash_bits (fun _ _ => c), b = false := by
  intro b hb
  simp only [dhash_bits, List.mem_flatMap, List.mem_map, List.mem_range] at hb
  obtain ⟨i, -, j, -, rfl⟩ := hb
  simp

/-- Translating every intensity by the same offset leaves the comparison list
unchanged. -/
theorem dhash_bits_add (g : Nat → Nat → Nat) (c : Nat) :
    dhash_bits (fun x y => g x y + c) = dhash_bits g := by
  unfold dhash_bits
  have h : ∀ i : Nat,
      (fun j => decide (g i j + c > g (i + 1) j + c))
        = fun j => decide (g i j > g (i + 1) j) := by
    intro i
    funext j
    rw [decide_eq_decide]
    exact Nat.add_lt_add_iff_right
  have h2 : (fun i => (List.range IMG_SCALE).map
        fun j => decide (g i j + c > g (i + 1) j + c))
      = fun i => (List.range IMG_SCALE).map fun j => decide (g i j > g (i + 1) j) := by
    funext i
    rw [h i]
  rw [h2]

/-! ### Claims about the Hash Extractor -/

/-- C1: for every 9×8 grayscale grid, `get_dhash` enumerates cells with the
column index `i` as the outer loop and the row index `j` as the inner loop,
compares `grid[i][j]` against `grid[i+1][j]`, and sets bit `k = i * 8 + j`
(value `1 << k`, bit 0 least significant, column 0 row 0; bit 63 column 7
row 7) exactly when that comparison holds. -/
theorem C1_bit_layout (grid : Nat → Nat → Nat) (i j : Nat) (hi : i < 8) (hj : j < 8) :
    (get_dhash grid).testBit (i * 8 + j) = decide (grid i j > grid (i + 1) j) :=
  get_dhash_testBit grid i j hi hj

theorem C1_bit_layout_witness :
    (get_dhash fun x y => 10 * x + y).testBit (2 * 8 + 3)
      = decide ((fun (x y : Nat) => 10 * x + y) 2 3
          > (fun (x y : Nat) => 10 * x + y) 3 3) :=
  C1_bit_layout (fun x y => 10 * x + y) 2 3 (by decide) (by decide)

/-- C3: the per-cell comparison is strict greater-than: a cell whose left
value equals its right value yields an unset bit, and a grid of identical
intensities hashes to exactly 0. -/
theorem C3_strict_gt (grid : Nat → Nat → Nat) (c i j : Nat) (hi : i < 8) (hj : j < 8)
    (heq : grid i j = grid (i + 1) j) :
    (get_dhash grid).testBit (i * 8 + j) = false
      ∧ get_dhash (fun _ _ => c) = 0 := by
  constructor
  · rw [get_dhash_testBit grid i j hi hj, heq]
    simp
  · rw [get_dhash]
    exact pack_bits_eq_zero _ (dhash_bits_const c)

theorem C3_strict_gt_witness :
    (get_dhash fun _ _ => 7).testBit (0 * 8 + 0) = false
      ∧ get_dhash (fun _ _ => 7) = 0 :=
  C3_strict_gt (fun _ _ => 7) 7 0 0 (by decide) (by decide) rfl

/-- C7: adding a uniform offset `c` to every intensity (no clipping — `Nat`
addition never saturates) leaves the extracted hash unchanged: only the
relative left-right ordering of intensities is consulted. -/
theorem C7_brightness_invariance (grid : Nat → Nat → Nat) (c : Nat) :
    get_dhash (fun x y => grid x y + c) = get_dhash grid := by
  rw [get_dhash, get_dhash, dhash_bits_add]

/-- C8: on the grid whose column `i` has constant intensity
`(scale - i) * 10` (monotonically decreasing left to right), the hash has all
64 bits set, i.e. equals `2 ^ 64 - 1`. -/
theorem C8_descending_all_ones :
    get_dhash (fun i _ => (IMG_SCALE - i) * 10) = 2 ^ 64 - 1 := by decide

/-! ### Claims about the Distance Calculator -/

/-- C5: `hamming_distance a b` is the number of bit positions at which the two
64-bit values differ — the population count of `a XOR b`. -/
theorem C5_hamming_is_diff_count (a b : Nat) (_ha : a < 2 ^ 64) (_hb : b < 2 ^ 64) :
    hamming_distance a b
      = ((List.range 64).filter fun k => a.testBit k != b.testBit k).length := by
  have h : ((List.range 64).filter fun k => (a ^^^ b).testBit k)
      = (List.range 64).filter fun k => a.testBit k != b.testBit k := by
    apply List.filter_congr
    intro k _
    rw [Nat.testBit_xor]
  rw [hamming_distance, count_ones, h]

theorem C5_hamming_is_diff_count_witness :
    hamming_distance 4485936524854165493 3337201687795727957
      = ((List.range 64).filter fun k =>
          Nat.testBit 4485936524854165493 k != Nat.testBit 3337201687795727957 k).length :=
  C5_hamming_is_diff_count 4485936524854165493 3337201687795727957
    (by decide) (by decide)

/-- C6: the distance is total (a plain function of its two arguments),
commutative, zero on equal arguments, and bounded by the 64-bit width. -/
theorem C6_distance_properties (a b h : Nat) :
    hamming_distance a b = hamming_distance b a
      ∧ hamming_distance h h = 0
      ∧ hamming_distance a b ≤ 64 := by
  refine ⟨?_, ?_, ?_⟩
  · rw [hamming_distance, hamming_distance, Nat.xor_comm]
  · rw [hamming_distance, Nat.xor_self]
    decide
  · rw [hamming_distance, count_ones]
    have hle := List.length_filter_le
      (fun k => (a ^^^ b).testBit k) (List.range 64)
    simpa only [List.length_range] using hle

/-- C10: the distance vanishes exactly on equal hashes: for 64-bit values,
`hamming_distance a b = 0` iff `a = b`. -/
theorem C10_distance_zero_iff (a b : Nat) (ha : a < 2 ^ 64) (hb : b < 2 ^ 64) :
    hamming_distance a b = 0 ↔ a = b := by
  rw [hamming_distance]
  constructor
  · intro h0
    have hnil : ((List.range 64).filter fun k => (a ^^^ b).testBit k) = [] :=
      List.eq_nil_of_length_eq_zero h0
    have hbits : ∀ k, (a ^^^ b).testBit k = false := by
      intro k
      rcases Nat.lt_or_ge k 64 with hk | hk
      · have hmem := List.filter_eq_nil_iff.mp hnil k (List.mem_range.mpr hk)
        revert hmem
        cases (a ^^^ b).testBit k <;> simp
      · apply Nat.testBit_lt_two_pow
        calc a ^^^ b < 2 ^ 64 := Nat.xor_lt_two_pow ha hb
          _ ≤ 2 ^ k := Nat.pow_le_pow_right (by omega) hk
    have hxor : a ^^^ b = 0 := by
      apply Nat.eq_of_testBit_eq
      intro k
      rw [hbits k, Nat.zero_testBit]
    exact Nat.xor_eq_zero.mp hxor
  · intro heq
    subst heq
    rw [Nat.xor_self]
    decide

theorem C10_distance_zero_iff_witness :
    hamming_distance 123456789 123456789 = 0 ↔ (123456789 : Nat) = 123456789 :=
  C10_distance_zero_iff 123456789 123456789 (by decide) (by decide)

/-! ### Claims about the Signature Reducer and the full pipeline -/

/-- The clamped nearest-neighbor index always lands inside a nonempty source
dimension. -/
theorem nearest_index_lt (srcLen dstLen i : Nat) (hs : 0 < srcLen) :
    nearest_index srcLen dstLen i < srcLen := by
  unfold nearest_index
  have h1 : min ((2 * i + 1) * srcLen / (2 * dstLen)) (srcLen - 1) ≤ srcLen - 1 :=
    Nat.min_le_right _ _
  omega

/-- C4: for every image with nonzero dimensions, the Signature Reducer returns
a single-channel grid of width exactly 9 and height exactly 8, and every
output sample is a point sample of the source (nearest neighbor, no averaging
or smoothing), for arbitrary source dimensions including ones smaller than the
target. -/
theorem C4_reducer_shape (img : Image) (hw : 0 < img.width) (hh : 0 < img.height) :
    (to_grey_signature_image img).width = 9
      ∧ (to_grey_signature_image img).height = 8
      ∧ ∀ x y, x < 9 → y < 8 →
          ∃ sx sy, sx < img.width ∧ sy < img.height
            ∧ (to_grey_signature_image img).pix x y = img.pix sx sy := by
  refine ⟨rfl, rfl, ?_⟩
  intro x y _ _
  exact ⟨nearest_index img.width 9 x, nearest_index img.height 8 y,
    nearest_index_lt _ _ _ hw, nearest_index_lt _ _ _ hh, rfl⟩

theorem C4_reducer_shape_witness :
    (to_grey_signature_image ⟨2, 3, fun x y => 100 * x + y⟩).width = 9
      ∧ (to_grey_signature_image ⟨2, 3, fun x y => 100 * x + y⟩).height = 8
      ∧ ∀ x y, x < 9 → y < 8 →
          ∃ sx sy, sx < 2 ∧ sy < 3
            ∧ (to_grey_signature_image ⟨2, 3, fun x y => 100 * x + y⟩).pix x y
              = 100 * sx + sy :=
  C4_reducer_shape ⟨2, 3, fun x y => 100 * x + y⟩ (by decide) (by decide)

/-- C9: on a 9×8 reduced buffer, every `get_pixel` access of the extraction
loop is in bounds — the checked loop returns exactly the unchecked
booleans, with no `none` (panic) entry. -/
theorem C9_accesses_in_bounds (im : Image) (hw : im.width = 9) (hh : im.height = 8) :
    dhash_bits_checked im = (dhash_bits im.pix).map some := by
  obtain ⟨w, h, p⟩ := im
  simp only at hw hh
  subst hw
  subst hh
  rfl

theorem C9_accesses_in_bounds_witness :
    dhash_bits_checked ⟨9, 8, fun x y => x * y⟩
      = (dhash_bits fun x y => x * y).map some :=
  C9_accesses_in_bounds ⟨9, 8, fun x y => x * y⟩ rfl rfl

/-- C2 counterexample: `get_dhash` has return type `u64` and performs no
dimension check, so on a zero-width, zero-height image it still returns a hash
value (here `0`) instead of failing with an `InvalidImage` error — no error
type exists anywhere in the crate. -/
theorem C2_counterexample_zero_dim_returns_hash :
    get_dhash_image ⟨0, 0, fun _ _ => 0⟩ = 0 := by decide

/-- C2 (amended): the hash computation is total and has no error channel: for
every input image, including images of zero width or height, `get_dhash`
returns a 64-bit hash value. -/
theorem C2_no_error_channel (img : Image) : get_dhash_image img < 2 ^ 64 :=
  get_dhash_lt_two_pow (to_grey_signature_image img).pix
